import Mathlib

/-!
Verification of the Mermaid tree builder in
`src/plugins/product_tree/static/product_tree/tree.js`.

The JavaScript core is `buildMermaid(node)`, a depth-first `walk` over a JSON
tree that pushes diagram lines (one node-declaration line per not-yet-seen id,
one edge line per well-formed child entry) and joins them with newlines.

Shallow embedding notes:
* JavaScript primitive values relevant to the code are modelled by `JVal`
  (undefined, null, booleans, integers, strings).  JS numbers are floats; every
  value the claims touch is integral, so `Int` is used.
* A JSON node is `Node`: either a nullish value, a non-object primitive, or an
  object with the fields the code reads (`id`, `name`, `ipn`, `cycle`,
  `quantity`, `substitutes`, `children`).  The code never reads any other
  field, so objects with extra fields (such as the spec's `child` wrapper) are
  represented by a `Node.obj` whose read fields carry those objects' values.
* `children` in JS can be a falsy value (then `(n.children || [])` is `[]`),
  an array, or a truthy non-array (then `.forEach` throws); `CKind` records
  which, and the list field is only consulted in the array case.
* `substitutes` is either not an array (ignored by `Array.isArray`) or an
  array of entries; a nullish entry makes `s.name` throw, which `SubEntry`
  captures.  A primitive entry behaves like an object whose three fields are
  all undefined, and a primitive child-array entry behaves like a nullish one
  (every guard that touches it rejects it the same way), so both are folded
  into the corresponding constructors.
* Thrown exceptions are modelled by `Except Unit`.
* The pushed strings are modelled as structured `Line` values together with a
  `renderLine` function producing exactly the template-literal strings of the
  source; `buildMermaid` renders them joined by newlines after the
  `graph TD` header, as in the source's initial `lines` array.
-/

deriving instance DecidableEq for Except

/-- A JavaScript primitive value (the fragment the builder manipulates). -/
inductive JVal where
  | undefined
  | null
  | bool (b : Bool)
  | num (n : Int)
  | str (s : String)
deriving DecidableEq, Repr

/-- JavaScript truthiness (`!v` is `!truthy v`). -/
def truthy : JVal → Bool
  | .undefined => false
  | .null => false
  | .bool b => b
  | .num n => decide (n ≠ 0)
  | .str s => decide (s ≠ "")

/-- JavaScript `v == null` (loose equality with null): true exactly for
`null` and `undefined`. -/
def nullish : JVal → Bool
  | .undefined => true
  | .null => true
  | _ => false

/-- JavaScript `String(v)` on the modelled primitives. -/
def jsString : JVal → String
  | .undefined => "undefined"
  | .null => "null"
  | .bool true => "true"
  | .bool false => "false"
  | .num n => toString n
  | .str s => s

/-- JavaScript `a || b`. -/
def jsOr (a b : JVal) : JVal := if truthy a then a else b

/-- `Array.prototype.join` converts nullish elements to the empty string and
other elements with `String`. -/
def joinElem (v : JVal) : String := if nullish v then "" else jsString v

/-- The three chained `.replace` calls of the source's `escape`, fused into a
single character substitution (each pattern and each replacement is one
character, so the chain is exactly a character map).  The first branch is the
source's `.replace(/"/g, '\"')`: in JavaScript the replacement literal
backslash-quote denotes just a double quote, so every quote is mapped to
itself (a no-op); the bracket replacements are real. -/
def escapeChar (c : Char) : Char :=
  if c = '"' then '"'
  else if c = '[' then '('
  else if c = ']' then ')'
  else c

/-- Source `escape(s)`:
`String(s || '').replace(/"/g, '\"').replace(/\[/g, '(').replace(/\]/g, ')')`. -/
def escape (s : JVal) : String :=
  String.mk ((jsString (jsOr s (.str ""))).data.map escapeChar)

/-- One entry of a `substitutes` array.  `nullish` is a null/undefined entry
(on which `s.name` throws); `obj` carries the three fields the code reads. -/
inductive SubEntry where
  | nullish
  | obj (name ipn id : JVal)
deriving DecidableEq, Repr

/-- The `substitutes` field: either not an array (`Array.isArray` is false) or
an array of entries. -/
inductive SubsField where
  | notArray
  | arr (xs : List SubEntry)
deriving DecidableEq, Repr

/-- Shape of the `children` field: a falsy value, a truthy non-array (on which
`.forEach` throws), or an array (whose entries are the node list stored next
to this tag). -/
inductive CKind where
  | falsy
  | badTruthy
  | arr
deriving DecidableEq, Repr

/-- A JSON tree value as the walker sees it.  `nullish` is null/undefined,
`prim` a non-object primitive (skipped by the same guards), `obj` an object
with the seven fields the code reads.  The `children` list is meaningful only
when `ck = CKind.arr`. -/
inductive Node where
  | nullish
  | prim (v : JVal)
  | obj (id name ipn cycle quantity : JVal)
        (substitutes : SubsField) (ck : CKind) (children : List Node)

/-- `s.name || s.ipn || s.id` for one substitutes entry, as converted by
`join` afterwards; a nullish entry throws. -/
def subText : SubEntry → Except Unit String
  | .nullish => .error ()
  | .obj name ipn i => .ok (joinElem (jsOr name (jsOr ipn i)))

/-- The `.map(...)` over a substitutes array, left to right, propagating the
first thrown exception (JavaScript `map` stops at the throw). -/
def subTexts : List SubEntry → Except Unit (List String)
  | [] => .ok []
  | x :: xs =>
      match subText x with
      | .error e => .error e
      | .ok s =>
        match subTexts xs with
        | .error e => .error e
        | .ok ss => .ok (s :: ss)

/-- The substitutes part of `nodeLabel`:
`Array.isArray(n.substitutes) && n.substitutes.length ? ... : ''`. -/
def subsText : SubsField → Except Unit String
  | .notArray => .ok ""
  | .arr [] => .ok ""
  | .arr (x :: xs) =>
      match subTexts (x :: xs) with
      | .error e => .error e
      | .ok parts => .ok ("\nSubs: " ++ String.intercalate ", " parts)

/-- Source `nodeLabel(n)` on the fields it reads: name (or the placeholder),
the optional IPN line, the optional substitutes line, the cycle marker. -/
def nodeLabel (name ipn cycle : JVal) (subs : SubsField) : Except Unit String :=
  match subsText subs with
  | .error e => .error e
  | .ok subStr =>
      .ok ((if truthy name then jsString name else "(unnamed)")
        ++ (if truthy ipn then "\nIPN: " ++ jsString ipn else "")
        ++ subStr
        ++ (if truthy cycle then "\n↻ cycle" else ""))

/-- Source `id(n)`: the template `P` followed by `String(n.id)`. -/
def nodeId (i : JVal) : String := "P" ++ jsString i

/-- A pushed diagram line, structured.  `decl` holds the already-escaped
label; `edge` holds parent id, child id, whether the connector is the dashed
`-.->` form, and the quantity annotation if present. -/
inductive Line where
  | decl (id : JVal) (label : String)
  | edge (pid cid : JVal) (dashed : Bool) (qty : Option JVal)
deriving DecidableEq, Repr

/-- Rendering of a structured line: exactly the source's template literals. -/
def renderLine : Line → String
  | .decl i lbl => nodeId i ++ "[\"" ++ lbl ++ "\"]"
  | .edge p c dashed qty =>
      nodeId p ++ " " ++ (if dashed then "-.->" else "-->")
        ++ (match qty with
            | some q => "|" ++ jsString q ++ "|"
            | none => "")
        ++ " " ++ nodeId c

/-- Walker state: the `seen` set (a JS `Set`, insertion-ordered, membership by
value) and the pushed lines (without the constant header). -/
structure St where
  seen : List JVal
  lines : List Line
deriving DecidableEq, Repr

/-- The declaration step of `walk`: if the id is unseen, push
`${id(n)}["${escape(nodeLabel(n))}"]` and add the id to `seen`. -/
def declStep (i name ipn cycle : JVal) (subs : SubsField) (st : St) : Except Unit St :=
  if i ∈ st.seen then .ok st
  else
    match nodeLabel name ipn cycle subs with
    | .error e => .error e
    | .ok lbl => .ok ⟨st.seen ++ [i], st.lines ++ [Line.decl i (escape (.str lbl))]⟩

/-- The edge line pushed for one child entry:
`${id(n)} ${connector}${qty} ${id(child)}` with
`connector = child.cycle ? '-.->' : '-->'` and
`qty = (child.quantity != null) ? '|' + child.quantity + '|' : ''`. -/
def edgeFor (pid cid cycle quantity : JVal) : Line :=
  Line.edge pid cid (truthy cycle) (if nullish quantity then none else some quantity)

mutual

/-- Source `walk(n)`: skip nullish/primitive or id-less nodes, declare the id
if unseen, then iterate the children array. -/
def walk (n : Node) (st : St) : Except Unit St :=
  match n with
  | .nullish => .ok st
  | .prim _ => .ok st
  | .obj i name ipn cycle _qty subs ck cs =>
      if truthy i = false then .ok st
      else
        match declStep i name ipn cycle subs st with
        | .error e => .error e
        | .ok st1 =>
          match ck with
          | .badTruthy => .error ()
          | .falsy => .ok st1
          | .arr => walkChildren i cs st1
termination_by 2 * sizeOf n

/-- The `forEach` over the children array, threading the state. -/
def walkChildren (pid : JVal) (l : List Node) (st : St) : Except Unit St :=
  match l with
  | [] => .ok st
  | c :: cs =>
      match walkEntry pid c st with
      | .error e => .error e
      | .ok st1 => walkChildren pid cs st1
termination_by 2 * sizeOf l + 1

/-- The body of the `forEach` callback for one child entry: skip nullish or
id-less children, push the edge line, and recurse unless the child is
cycle-marked. -/
def walkEntry (pid : JVal) (c : Node) (st : St) : Except Unit St :=
  match c with
  | .nullish => .ok st
  | .prim _ => .ok st
  | .obj i name ipn cycle qty subs ck cs =>
      if truthy i = false then .ok st
      else
        let st1 : St := ⟨st.seen, st.lines ++ [edgeFor pid i cycle qty]⟩
        if truthy cycle then .ok st1
        else walk (.obj i name ipn cycle qty subs ck cs) st1
termination_by 2 * sizeOf c + 1

end

/-- The structured line list produced by `buildMermaid` (header excluded). -/
def buildLines (node : Node) : Except Unit (List Line) :=
  match walk node ⟨[], []⟩ with
  | .error e => .error e
  | .ok st => .ok st.lines

/-- Source `buildMermaid(node)`: the header plus the rendered pushed lines,
joined by newlines. -/
def buildMermaid (node : Node) : Except Unit String :=
  match walk node ⟨[], []⟩ with
  | .error e => .error e
  | .ok st => .ok (String.intercalate "\n" ("graph TD" :: st.lines.map renderLine))

/-- The `id` field read of a node value (`n.id`; undefined on non-objects). -/
def Node.idv : Node → JVal
  | .obj i _ _ _ _ _ _ _ => i
  | _ => .undefined

/-- The `cycle` field read of a node value. -/
def Node.cyclev : Node → JVal
  | .obj _ _ _ cy _ _ _ _ => cy
  | _ => .undefined

/-- The `quantity` field read of a node value. -/
def Node.qtyv : Node → JVal
  | .obj _ _ _ _ q _ _ _ => q
  | _ => .undefined

/-- The child entries the `forEach` of `walk` iterates over:
`(n.children || [])`, an empty list unless the field is an array. -/
def childrenOf : Node → List Node
  | .obj _ _ _ _ _ _ .arr cs => cs
  | _ => []

/-- The ids of the declaration lines in a line list, in order. -/
def declIds : List Line → List JVal
  | [] => []
  | .decl i _ :: ls => i :: declIds ls
  | .edge _ _ _ _ :: ls => declIds ls

mutual

/-- All object nodes the traversal can reach from a value: the value itself
(if an object) and, when its `children` field is an array, the nodes reachable
from the entries. -/
def subnodes : Node → List Node
  | .nullish => []
  | .prim _ => []
  | .obj i nm ip cy q sb .arr cs => .obj i nm ip cy q sb .arr cs :: subnodesList cs
  | .obj i nm ip cy q sb .falsy cs => [.obj i nm ip cy q sb .falsy cs]
  | .obj i nm ip cy q sb .badTruthy cs => [.obj i nm ip cy q sb .badTruthy cs]
termination_by structural n => n

def subnodesList : List Node → List Node
  | [] => []
  | c :: cs => subnodes c ++ subnodesList cs
termination_by structural l => l

end

mutual

/-- The `id` fields of all reachable object nodes, in depth-first order. -/
def allIds : Node → List JVal
  | .nullish => []
  | .prim _ => []
  | .obj i _ _ _ _ _ .arr cs => i :: allIdsList cs
  | .obj i _ _ _ _ _ .falsy _ => [i]
  | .obj i _ _ _ _ _ .badTruthy _ => [i]
termination_by structural n => n

def allIdsList : List Node → List JVal
  | [] => []
  | c :: cs => allIds c ++ allIdsList cs
termination_by structural l => l

end

mutual

/-- No reachable object node carries a truthy `cycle` flag. -/
def noCycB : Node → Bool
  | .nullish => true
  | .prim _ => true
  | .obj _ _ _ cy _ _ .arr cs => !truthy cy && noCycBList cs
  | .obj _ _ _ cy _ _ .falsy _ => !truthy cy
  | .obj _ _ _ cy _ _ .badTruthy _ => !truthy cy
termination_by structural n => n

def noCycBList : List Node → Bool
  | [] => true
  | c :: cs => noCycB c && noCycBList cs
termination_by structural l => l

end

/-- A substitutes entry that does not make `s.name` throw. -/
def subEntryOK : SubEntry → Bool
  | .nullish => false
  | .obj _ _ _ => true

/-- A substitutes field `nodeLabel` can process without throwing. -/
def subsOK : SubsField → Bool
  | .notArray => true
  | .arr xs => xs.all subEntryOK

mutual

/-- Well-formedness making the whole traversal throw-free: no reachable node
has a truthy non-array `children` field, and no reachable substitutes array
contains a nullish entry. -/
def WFB : Node → Bool
  | .nullish => true
  | .prim _ => true
  | .obj _ _ _ _ _ sb .arr cs => subsOK sb && WFBList cs
  | .obj _ _ _ _ _ sb .falsy _ => subsOK sb
  | .obj _ _ _ _ _ _ .badTruthy _ => false
termination_by structural n => n

def WFBList : List Node → Bool
  | [] => true
  | c :: cs => WFB c && WFBList cs
termination_by structural l => l

end

mutual

/-- Height of a value as the traversal sees it: the length of the longest
chain of nested object nodes the recursion can descend through. -/
def heightN : Node → Nat
  | .nullish => 0
  | .prim _ => 0
  | .obj _ _ _ _ _ _ .arr cs => 1 + heightL cs
  | .obj _ _ _ _ _ _ .falsy _ => 1
  | .obj _ _ _ _ _ _ .badTruthy _ => 1
termination_by structural n => n

def heightL : List Node → Nat
  | [] => 0
  | c :: cs => max (heightN c) (heightL cs)
termination_by structural l => l

end

mutual

/-- `walk` with an explicit recursion budget: one unit of fuel is consumed by
each nested `walk` call, so `none` means the recursion depth exceeded the
budget.  Used to state that the recursion depth of the source's `walk` is
bounded by the tree height. -/
def walkT (fuel : Nat) (n : Node) (st : St) : Option (Except Unit St) :=
  match fuel with
  | 0 => none
  | f + 1 =>
    match n with
    | .nullish => some (.ok st)
    | .prim _ => some (.ok st)
    | .obj i name ipn cycle _qty subs ck cs =>
        if truthy i = false then some (.ok st)
        else
          match declStep i name ipn cycle subs st with
          | .error e => some (.error e)
          | .ok st1 =>
            match ck with
            | .badTruthy => some (.error ())
            | .falsy => some (.ok st1)
            | .arr => walkTChildren f i cs st1
termination_by (fuel, 2 * sizeOf n)

def walkTChildren (fuel : Nat) (pid : JVal) (l : List Node) (st : St) :
    Option (Except Unit St) :=
  match l with
  | [] => some (.ok st)
  | c :: cs =>
      match walkTEntry fuel pid c st with
      | none => none
      | some (.error e) => some (.error e)
      | some (.ok st1) => walkTChildren fuel pid cs st1
termination_by (fuel, 2 * sizeOf l + 1)

def walkTEntry (fuel : Nat) (pid : JVal) (c : Node) (st : St) :
    Option (Except Unit St) :=
  match c with
  | .nullish => some (.ok st)
  | .prim _ => some (.ok st)
  | .obj i name ipn cycle qty subs ck cs =>
      if truthy i = false then some (.ok st)
      else
        let st1 : St := ⟨st.seen, st.lines ++ [edgeFor pid i cycle qty]⟩
        if truthy cycle then some (.ok st1)
        else walkT fuel (.obj i name ipn cycle qty subs ck cs) st1
termination_by (fuel, 2 * sizeOf c + 1)

end

mutual

/-- `walk` with a step budget consumed one unit per call across the whole
mutual family, making the recursion structural on the budget; with enough
fuel it computes exactly `walk` (see the agreement theorem), which lets
concrete runs of the traversal be evaluated. -/
def walkS (fuel : Nat) (n : Node) (st : St) : Option (Except Unit St) :=
  match fuel with
  | 0 => none
  | f + 1 =>
    match n with
    | .nullish => some (.ok st)
    | .prim _ => some (.ok st)
    | .obj i name ipn cycle _qty subs ck cs =>
        if truthy i = false then some (.ok st)
        else
          match declStep i name ipn cycle subs st with
          | .error e => some (.error e)
          | .ok st1 =>
            match ck with
            | .badTruthy => some (.error ())
            | .falsy => some (.ok st1)
            | .arr => walkSChildren f i cs st1
termination_by structural fuel

def walkSChildren (fuel : Nat) (pid : JVal) (l : List Node) (st : St) :
    Option (Except Unit St) :=
  match fuel with
  | 0 => none
  | f + 1 =>
    match l with
    | [] => some (.ok st)
    | c :: cs =>
        match walkSEntry f pid c st with
        | none => none
        | some (.error e) => some (.error e)
        | some (.ok st1) => walkSChildren f pid cs st1
termination_by structural fuel

def walkSEntry (fuel : Nat) (pid : JVal) (c : Node) (st : St) :
    Option (Except Unit St) :=
  match fuel with
  | 0 => none
  | f + 1 =>
    match c with
    | .nullish => some (.ok st)
    | .prim _ => some (.ok st)
    | .obj i name ipn cycle qty subs ck cs =>
        if truthy i = false then some (.ok st)
        else
          let st1 : St := ⟨st.seen, st.lines ++ [edgeFor pid i cycle qty]⟩
          if truthy cycle then some (.ok st1)
          else walkS f (.obj i name ipn cycle qty subs ck cs) st1
termination_by structural fuel

end

/-!
Reference-graph model for the termination claim.  In JavaScript the input is
an object graph: the same object can occur as a child entry of several nodes,
including one of its own descendants, in which case the graph of object
references has a genuine cycle with no `cycle` flag set.  The tree type
`Node` cannot express such sharing, so for this one claim the heap is made
explicit: nodes live in a list, and child entries are references (indices)
into it.  `walkR` is `walk` transcribed to this representation with the same
fuel discipline as `walkT`; a reference outside the heap behaves like a
nullish entry (it cannot arise from a real object graph).
-/

/-- A node record in the reference-graph model; same fields as `Node.obj`,
with child entries as heap references (`none` is a nullish array entry). -/
structure RNode where
  id : JVal
  name : JVal
  ipn : JVal
  cycle : JVal
  quantity : JVal
  substitutes : SubsField
  ck : CKind
  children : List (Option Nat)
deriving DecidableEq, Repr

mutual

/-- `walk` on a heap of `RNode`s, with fuel counting nested `walk` calls. -/
def walkR (fuel : Nat) (h : List RNode) (r : Option Nat) (st : St) :
    Option (Except Unit St) :=
  match fuel with
  | 0 => none
  | f + 1 =>
    match r with
    | none => some (.ok st)
    | some ref =>
      match h[ref]? with
      | none => some (.ok st)
      | some n =>
        if truthy n.id = false then some (.ok st)
        else
          match declStep n.id n.name n.ipn n.cycle n.substitutes st with
          | .error e => some (.error e)
          | .ok st1 =>
            match n.ck with
            | .badTruthy => some (.error ())
            | .falsy => some (.ok st1)
            | .arr => walkRChildren f h n.id n.children st1
termination_by (fuel, 0)

def walkRChildren (fuel : Nat) (h : List RNode) (pid : JVal)
    (l : List (Option Nat)) (st : St) : Option (Except Unit St) :=
  match l with
  | [] => some (.ok st)
  | none :: es => walkRChildren fuel h pid es st
  | some ref :: es =>
      match h[ref]? with
      | none => walkRChildren fuel h pid es st
      | some c =>
        if truthy c.id = false then walkRChildren fuel h pid es st
        else
          let st1 : St := ⟨st.seen, st.lines ++ [edgeFor pid c.id c.cycle c.quantity]⟩
          if truthy c.cycle then walkRChildren fuel h pid es st1
          else
            match walkR fuel h (some ref) st1 with
            | none => none
            | some (.error e) => some (.error e)
            | some (.ok st2) => walkRChildren fuel h pid es st2
termination_by (fuel, l.length + 1)

end

/-!  Concrete inputs used by the claims. -/

/-- The spec's quantity example in the shape the code actually consumes:
child entries are the child nodes themselves, carrying their own `quantity`
field (the code reads `child.id`, `child.quantity`, `child.cycle` directly on
the array entry). -/
def exFlat : Node :=
  .obj (.num 1) (.str "A") .undefined .undefined .undefined .notArray .arr
    [.obj (.num 2) (.str "B") .undefined .undefined (.num 2) .notArray .arr []]

/-- The spec's quantity example taken literally: the child entry is a wrapper
object with a `quantity` field and the node under a `child` key.  The code
reads only `id`, `cycle`, `quantity` (and, had it recursed, the other node
fields) on the entry itself, so the wrapper is an object whose `id` is
undefined; the nested `child` object is never read. -/
def exWrapper : Node :=
  .obj (.num 1) (.str "A") .undefined .undefined .undefined .notArray .arr
    [.obj .undefined .undefined .undefined .undefined (.num 2) .notArray .falsy []]

/-- The spec's cycle example in the shape the code consumes: node 2 is marked
`cycle: true` and has node 1 as its only child entry. -/
def exCycle : Node :=
  .obj (.num 1) (.str "A") .undefined .undefined .undefined .notArray .arr
    [.obj (.num 2) (.str "B") .undefined (.bool true) .undefined .notArray .arr
      [.obj (.num 1) (.str "A") .undefined .undefined .undefined .notArray .falsy []]]

/-- A node reached via two distinct edges: the root's children array holds
the same subtree twice (in JavaScript, twice the same object reference). -/
def exDiamond : Node :=
  .obj (.num 1) (.str "A") .undefined .undefined .undefined .notArray .arr
    [.obj (.num 2) (.str "B") .undefined .undefined .undefined .notArray .arr
      [.obj (.num 3) (.str "C") .undefined .undefined .undefined .notArray .arr []],
     .obj (.num 2) (.str "B") .undefined .undefined .undefined .notArray .arr
      [.obj (.num 3) (.str "C") .undefined .undefined .undefined .notArray .arr []]]

/-- The line list `walk` produces on `exDiamond`: the shared node 2 is
declared once but traversed twice, so its outgoing edge line appears
twice. -/
def exDiamondLines : List Line :=
  [Line.decl (.num 1) "A",
   Line.edge (.num 1) (.num 2) false none,
   Line.decl (.num 2) "B",
   Line.edge (.num 2) (.num 3) false none,
   Line.decl (.num 3) "C",
   Line.edge (.num 1) (.num 2) false none,
   Line.edge (.num 2) (.num 3) false none]

/-- A root whose `substitutes` array contains a null entry: `s.name` throws
inside `nodeLabel` while the root is being declared. -/
def exBadSubs : Node :=
  .obj (.num 1) (.str "A") .undefined .undefined .undefined (.arr [.nullish]) .falsy []

/-- A tree full of malformed-but-skippable pieces: nullish and primitive
child entries, an id-less child object, and a child with a falsy (numeric 0)
id. -/
def exJunk : Node :=
  .obj (.num 1) (.str "A") .undefined .undefined .undefined .notArray .arr
    [.nullish, .prim (.num 7),
     .obj .undefined (.str "noid") .undefined .undefined .undefined .notArray .falsy [],
     .obj (.num 0) (.str "zeroid") .undefined .undefined .undefined .notArray .falsy [],
     .obj (.num 2) (.str "B") .undefined .undefined .undefined .notArray .falsy []]

/-- A node whose name contains a double quote and brackets. -/
def exQuote : Node :=
  .obj (.num 1) (.str "A\"B") .undefined .undefined .undefined .notArray .falsy []

/-- First node of the cyclic object graph: its only child is the node at
heap position 1. -/
def rnodeA : RNode :=
  ⟨.num 1, .str "A", .undefined, .undefined, .undefined, .notArray, .arr, [some 1]⟩

/-- Second node of the cyclic object graph: its only child is the node at
heap position 0. -/
def rnodeB : RNode :=
  ⟨.num 2, .str "B", .undefined, .undefined, .undefined, .notArray, .arr, [some 0]⟩

/-- A two-node object graph with a genuine reference cycle and no `cycle`
flag: node 0 lists node 1 as its child and node 1 lists node 0. -/
def cycHeap : List RNode := [rnodeA, rnodeB]

/-- The state invariant of the traversal: every id that has a declaration
line is in `seen`, and no id has two declaration lines. -/
def InvSt (st : St) : Prop :=
  (∀ j ∈ declIds st.lines, j ∈ st.seen) ∧ (declIds st.lines).Nodup

/-- The line is a node-declaration line. -/
def IsDeclLine (l : Line) : Prop := ∃ j lbl, l = Line.decl j lbl

/-- The line is the edge line `walk` pushes for some parent node of `ns` and
one of that parent's child entries: its connector and quantity annotation are
computed from that child's `cycle` and `quantity` fields. -/
def EdgeSrc (ns : List Node) (l : Line) : Prop :=
  ∃ p c, p ∈ ns ∧ c ∈ childrenOf p ∧
    l = edgeFor p.idv c.idv c.cyclev c.qtyv


theorem declIds_append (a b : List Line) :
    declIds (a ++ b) = declIds a ++ declIds b := by
  induction a with
  | nil => rfl
  | cons x xs ih => cases x <;> simp [declIds, ih]

theorem declStep_ok {i name ipn cycle : JVal} {subs : SubsField} {st st1 : St}
    (h : declStep i name ipn cycle subs st = .ok st1) :
    (i ∈ st.seen ∧ st1 = st) ∨
    (i ∉ st.seen ∧ ∃ lbl, nodeLabel name ipn cycle subs = .ok lbl ∧
      st1 = ⟨st.seen ++ [i], st.lines ++ [Line.decl i (escape (.str lbl))]⟩) := by
  unfold declStep at h
  by_cases hm : i ∈ st.seen
  · simp [hm] at h
    exact Or.inl ⟨hm, h.symm⟩
  · simp [hm] at h
    cases hl : nodeLabel name ipn cycle subs with
    | error e => rw [hl] at h; cases h
    | ok lbl =>
        rw [hl] at h
        cases h
        exact Or.inr ⟨hm, lbl, rfl, rfl⟩

theorem subTexts_ok {xs : List SubEntry} (h : ∀ x ∈ xs, subEntryOK x = true) :
    ∃ ss, subTexts xs = .ok ss := by
  induction xs with
  | nil => exact ⟨[], rfl⟩
  | cons x xs ih =>
      cases x with
      | nullish => simpa [subEntryOK] using h _ (List.mem_cons_self _ _)
      | obj nm ip i =>
          obtain ⟨ss, hss⟩ := ih fun y hy => h y (List.mem_cons_of_mem _ hy)
          simp only [subTexts, subText, hss]
          exact ⟨_, rfl⟩

theorem nodeLabel_ok {name ipn cycle : JVal} {subs : SubsField}
    (h : subsOK subs = true) :
    ∃ lbl, nodeLabel name ipn cycle subs = .ok lbl := by
  cases subs with
  | notArray => exact ⟨_, rfl⟩
  | arr xs =>
      cases xs with
      | nil => exact ⟨_, rfl⟩
      | cons x xs =>
          simp only [subsOK, List.all_eq_true] at h
          obtain ⟨ss, hss⟩ := subTexts_ok h
          simp only [nodeLabel, subsText, hss]
          exact ⟨_, rfl⟩

theorem declIds_edge (a : List Line) (p c : JVal) (d : Bool) (q : Option JVal) :
    declIds (a ++ [Line.edge p c d q]) = declIds a := by
  rw [declIds_append]; simp [declIds]

theorem InvSt_edge {st : St} (h : InvSt st) (p c : JVal) (d : Bool) (q : Option JVal) :
    InvSt ⟨st.seen, st.lines ++ [Line.edge p c d q]⟩ := by
  obtain ⟨h1, h2⟩ := h
  refine ⟨?_, ?_⟩ <;> simp only [declIds_edge]
  · exact h1
  · exact h2

theorem InvSt_decl {st : St} (h : InvSt st) {i : JVal} (hm : i ∉ st.seen) (lbl : String) :
    InvSt ⟨st.seen ++ [i], st.lines ++ [Line.decl i lbl]⟩ := by
  obtain ⟨h1, h2⟩ := h
  constructor
  · intro j hj
    rw [declIds_append] at hj
    simp only [declIds, List.mem_append, List.mem_singleton] at hj ⊢
    rcases hj with hj | hj
    · exact Or.inl (h1 j hj)
    · exact Or.inr hj
  · rw [declIds_append]
    simp only [declIds]
    rw [List.nodup_append]
    refine ⟨h2, List.nodup_singleton i, ?_⟩
    intro j hj
    simp only [List.mem_singleton]
    intro hji
    subst hji
    exact hm (h1 j hj)

theorem declStep_total {i name ipn cycle : JVal} {subs : SubsField} {st : St}
    (h : subsOK subs = true) :
    ∃ st1, declStep i name ipn cycle subs st = .ok st1 := by
  unfold declStep
  by_cases hm : i ∈ st.seen
  · rw [if_pos hm]
    exact ⟨st, rfl⟩
  · rw [if_neg hm]
    obtain ⟨lbl, hl⟩ := @nodeLabel_ok name ipn cycle subs h
    rw [hl]
    exact ⟨_, rfl⟩

theorem walk_inv : ∀ n st, ∀ st2, walk n st = .ok st2 → InvSt st → InvSt st2 := by
  refine walk.induct
    (fun n st => ∀ st2, walk n st = .ok st2 → InvSt st → InvSt st2)
    (fun pid l st => ∀ st2, walkChildren pid l st = .ok st2 → InvSt st → InvSt st2)
    (fun pid c st => ∀ st2, walkEntry pid c st = .ok st2 → InvSt st → InvSt st2)
    ?_ ?_ ?_ ?_ ?_ ?_ ?_ ?_ ?_ ?_ ?_ ?_ ?_ ?_ ?_
  · intro st st2 h hin
    simp only [walk, Except.ok.injEq] at h
    subst h; exact hin
  · intro st v st2 h hin
    simp only [walk, Except.ok.injEq] at h
    subst h; exact hin
  · intro st i nm ip cy qt sb ck cs hi st2 h hin
    simp only [walk, if_pos hi, Except.ok.injEq] at h
    subst h; exact hin
  · intro st i nm ip cy qt sb ck cs hi e hds st2 h hin
    simp only [walk, if_neg hi, hds] at h
    exact absurd h (by simp)
  · intro st i nm ip cy qt sb cs hi st1 hds st2 h hin
    simp only [walk, if_neg hi, hds] at h
    exact absurd h (by simp)
  · intro st i nm ip cy qt sb cs hi st1 hds st2 h hin
    simp only [walk, if_neg hi, hds, Except.ok.injEq] at h
    subst h
    rcases declStep_ok hds with ⟨hm, rfl⟩ | ⟨hm, lbl, hlbl, rfl⟩
    · exact hin
    · exact InvSt_decl hin hm _
  · intro st i nm ip cy qt sb cs hi st1 hds ih st2 h hin
    simp only [walk, if_neg hi, hds] at h
    have hin1 : InvSt st1 := by
      rcases declStep_ok hds with ⟨hm, rfl⟩ | ⟨hm, lbl, hlbl, rfl⟩
      · exact hin
      · exact InvSt_decl hin hm _
    exact ih st2 h hin1
  · intro pid st st2 h hin
    simp only [walkChildren, Except.ok.injEq] at h
    subst h; exact hin
  · intro pid st c cs e he ih st2 h hin
    simp only [walkChildren, he] at h
    exact absurd h (by simp)
  · intro pid st c cs st1 he ih1 ih2 st2 h hin
    simp only [walkChildren, he] at h
    exact ih2 st2 h (ih1 st1 he hin)
  · intro pid st st2 h hin
    simp only [walkEntry, Except.ok.injEq] at h
    subst h; exact hin
  · intro pid st v st2 h hin
    simp only [walkEntry, Except.ok.injEq] at h
    subst h; exact hin
  · intro pid st i nm ip cy qt sb ck cs hi st2 h hin
    simp only [walkEntry, if_pos hi, Except.ok.injEq] at h
    subst h; exact hin
  · intro pid st i nm ip cy qt sb ck cs hi hcy st2 h hin
    simp only [walkEntry, if_neg hi, if_pos hcy, Except.ok.injEq] at h
    subst h
    exact InvSt_edge hin _ _ _ _
  · intro pid st i nm ip cy qt sb ck cs hi st1 hcy ih st2 h hin
    simp only [walkEntry, if_neg hi, if_neg hcy] at h
    exact ih st2 h (InvSt_edge hin _ _ _ _)

theorem allIds_obj_mem (i nm ip cy qt : JVal) (sb : SubsField) (ck : CKind)
    (cs : List Node) : i ∈ allIds (.obj i nm ip cy qt sb ck cs) := by
  cases ck <;> simp [allIds]

theorem noCycB_cycle_false {i nm ip cy qt : JVal} {sb : SubsField} {ck : CKind}
    {cs : List Node} (h : noCycB (.obj i nm ip cy qt sb ck cs) = true) :
    truthy cy = false := by
  cases ck <;> simp [noCycB] at h <;> simp [h]

theorem walk_trace : ∀ n st,
    (allIds n).Nodup → (∀ j ∈ allIds n, truthy j = true) → noCycB n = true →
    (∀ j ∈ allIds n, j ∉ st.seen) → ∀ st2, walk n st = .ok st2 →
    st2.seen = st.seen ++ allIds n ∧
      declIds st2.lines = declIds st.lines ++ allIds n := by
  refine walk.induct
    (fun n st => (allIds n).Nodup → (∀ j ∈ allIds n, truthy j = true) →
      noCycB n = true → (∀ j ∈ allIds n, j ∉ st.seen) →
      ∀ st2, walk n st = .ok st2 →
      st2.seen = st.seen ++ allIds n ∧
        declIds st2.lines = declIds st.lines ++ allIds n)
    (fun pid l st => (allIdsList l).Nodup →
      (∀ j ∈ allIdsList l, truthy j = true) → noCycBList l = true →
      (∀ j ∈ allIdsList l, j ∉ st.seen) →
      ∀ st2, walkChildren pid l st = .ok st2 →
      st2.seen = st.seen ++ allIdsList l ∧
        declIds st2.lines = declIds st.lines ++ allIdsList l)
    (fun pid c st => (allIds c).Nodup → (∀ j ∈ allIds c, truthy j = true) →
      noCycB c = true → (∀ j ∈ allIds c, j ∉ st.seen) →
      ∀ st2, walkEntry pid c st = .ok st2 →
      st2.seen = st.seen ++ allIds c ∧
        declIds st2.lines = declIds st.lines ++ allIds c)
    ?_ ?_ ?_ ?_ ?_ ?_ ?_ ?_ ?_ ?_ ?_ ?_ ?_ ?_ ?_
  · intro st hnd htr hnc hdisj st2 h
    simp only [walk, Except.ok.injEq] at h
    subst h; simp [allIds]
  · intro st v hnd htr hnc hdisj st2 h
    simp only [walk, Except.ok.injEq] at h
    subst h; simp [allIds]
  · intro st i nm ip cy qt sb ck cs hi hnd htr hnc hdisj st2 h
    have := htr i (allIds_obj_mem i nm ip cy qt sb ck cs)
    simp [this] at hi
  · intro st i nm ip cy qt sb ck cs hi e hds hnd htr hnc hdisj st2 h
    simp only [walk, if_neg hi, hds] at h
    exact absurd h (by simp)
  · intro st i nm ip cy qt sb cs hi st1 hds hnd htr hnc hdisj st2 h
    simp only [walk, if_neg hi, hds] at h
    exact absurd h (by simp)
  · intro st i nm ip cy qt sb cs hi st1 hds hnd htr hnc hdisj st2 h
    simp only [walk, if_neg hi, hds, Except.ok.injEq] at h
    subst h
    have hmem : i ∉ st.seen := hdisj i (by simp [allIds])
    rcases declStep_ok hds with ⟨hm, rfl⟩ | ⟨hm, lbl, hlbl, rfl⟩
    · exact absurd hm hmem
    · simp [allIds, declIds_append, declIds]
  · intro st i nm ip cy qt sb cs hi st1 hds ih hnd htr hnc hdisj st2 h
    simp only [walk, if_neg hi, hds] at h
    simp only [allIds] at hnd htr hdisj ⊢
    have hmem : i ∉ st.seen := hdisj i (by simp)
    have hitail : i ∉ allIdsList cs := by
      simpa using (List.nodup_cons.mp hnd).1
    rcases declStep_ok hds with ⟨hm, rfl⟩ | ⟨hm, lbl, hlbl, hst1⟩
    · exact absurd hm hmem
    · subst hst1
      simp only [noCycB, Bool.and_eq_true] at hnc
      have h2 := ih (List.nodup_cons.mp hnd).2
        (fun j hj => htr j (List.mem_cons_of_mem _ hj)) hnc.2
        (fun j hj => by
          simp only [List.mem_append, List.mem_singleton]
          push_neg
          exact ⟨hdisj j (List.mem_cons_of_mem _ hj),
            fun hji => hitail (hji ▸ hj)⟩)
        st2 h
      constructor
      · rw [h2.1]; simp
      · rw [h2.2, declIds_append]; simp [declIds]
  · intro pid st hnd htr hnc hdisj st2 h
    simp only [walkChildren, Except.ok.injEq] at h
    subst h; simp [allIdsList]
  · intro pid st c cs e he ih hnd htr hnc hdisj st2 h
    simp only [walkChildren, he] at h
    exact absurd h (by simp)
  · intro pid st c cs st1 he ih1 ih2 hnd htr hnc hdisj st2 h
    simp only [walkChildren, he] at h
    simp only [allIdsList] at hnd htr hdisj ⊢
    rw [List.nodup_append] at hnd
    simp only [noCycBList, Bool.and_eq_true] at hnc
    have r1 := ih1 hnd.1 (fun j hj => htr j (List.mem_append_left _ hj)) hnc.1
      (fun j hj => hdisj j (List.mem_append_left _ hj)) st1 he
    have r2 := ih2 hnd.2.1 (fun j hj => htr j (List.mem_append_right _ hj)) hnc.2
      (fun j hj => by
        rw [r1.1]
        simp only [List.mem_append]
        push_neg
        exact ⟨hdisj j (List.mem_append_right _ hj),
          fun hjc => hnd.2.2 hjc hj⟩)
      st2 h
    constructor
    · rw [r2.1, r1.1, List.append_assoc]
    · rw [r2.2, r1.2, List.append_assoc]
  · intro pid st hnd htr hnc hdisj st2 h
    simp only [walkEntry, Except.ok.injEq] at h
    subst h; simp [allIds]
  · intro pid st v hnd htr hnc hdisj st2 h
    simp only [walkEntry, Except.ok.injEq] at h
    subst h; simp [allIds]
  · intro pid st i nm ip cy qt sb ck cs hi hnd htr hnc hdisj st2 h
    have := htr i (allIds_obj_mem i nm ip cy qt sb ck cs)
    simp [this] at hi
  · intro pid st i nm ip cy qt sb ck cs hi hcy hnd htr hnc hdisj st2 h
    have := noCycB_cycle_false hnc
    simp [this] at hcy
  · intro pid st i nm ip cy qt sb ck cs hi st1 hcy ih hnd htr hnc hdisj st2 h
    simp only [walkEntry, if_neg hi, if_neg hcy] at h
    have r := ih hnd htr hnc (fun j hj => hdisj j hj) st2 h
    refine ⟨r.1, ?_⟩
    have hlines : declIds st1.lines = declIds st.lines := by
      show declIds (st.lines ++ [edgeFor pid i cy qt]) = declIds st.lines
      simp [edgeFor, declIds_append, declIds]
    rw [r.2, hlines]

theorem mem_subnodesList {p c : Node} {l : List Node}
    (h1 : p ∈ subnodes c) (h2 : c ∈ l) : p ∈ subnodesList l := by
  induction l with
  | nil => cases h2
  | cons x xs ih =>
      simp only [subnodesList, List.mem_append]
      rcases List.mem_cons.mp h2 with rfl | hx
      · exact Or.inl h1
      · exact Or.inr (ih hx)

theorem EdgeSrc_mono {ns ms : List Node} {l : Line}
    (h : EdgeSrc ns l) (hsub : ∀ x ∈ ns, x ∈ ms) : EdgeSrc ms l := by
  obtain ⟨p, c, hp, hc, hl⟩ := h
  exact ⟨p, c, hsub p hp, hc, hl⟩

theorem walk_edges : ∀ n st, ∀ st2, walk n st = .ok st2 → ∀ l ∈ st2.lines,
    l ∈ st.lines ∨ IsDeclLine l ∨ EdgeSrc (subnodes n) l := by
  refine walk.induct
    (fun n st => ∀ st2, walk n st = .ok st2 → ∀ l ∈ st2.lines,
      l ∈ st.lines ∨ IsDeclLine l ∨ EdgeSrc (subnodes n) l)
    (fun pid l0 st => ∀ st2, walkChildren pid l0 st = .ok st2 → ∀ l ∈ st2.lines,
      l ∈ st.lines ∨ IsDeclLine l ∨
      (∃ c ∈ l0, l = edgeFor pid c.idv c.cyclev c.qtyv) ∨
      EdgeSrc (subnodesList l0) l)
    (fun pid c st => ∀ st2, walkEntry pid c st = .ok st2 → ∀ l ∈ st2.lines,
      l ∈ st.lines ∨ IsDeclLine l ∨
      (l = edgeFor pid c.idv c.cyclev c.qtyv) ∨
      EdgeSrc (subnodes c) l)
    ?_ ?_ ?_ ?_ ?_ ?_ ?_ ?_ ?_ ?_ ?_ ?_ ?_ ?_ ?_
  · intro st st2 h l hl
    simp only [walk, Except.ok.injEq] at h
    subst h; exact Or.inl hl
  · intro st v st2 h l hl
    simp only [walk, Except.ok.injEq] at h
    subst h; exact Or.inl hl
  · intro st i nm ip cy qt sb ck cs hi st2 h l hl
    simp only [walk, if_pos hi, Except.ok.injEq] at h
    subst h; exact Or.inl hl
  · intro st i nm ip cy qt sb ck cs hi e hds st2 h l hl
    simp only [walk, if_neg hi, hds] at h
    exact absurd h (by simp)
  · intro st i nm ip cy qt sb cs hi st1 hds st2 h l hl
    simp only [walk, if_neg hi, hds] at h
    exact absurd h (by simp)
  · intro st i nm ip cy qt sb cs hi st1 hds st2 h l hl
    simp only [walk, if_neg hi, hds, Except.ok.injEq] at h
    subst h
    rcases declStep_ok hds with ⟨hm, rfl⟩ | ⟨hm, lbl, hlbl, rfl⟩
    · exact Or.inl hl
    · simp only [List.mem_append, List.mem_singleton] at hl
      rcases hl with hl | rfl
      · exact Or.inl hl
      · exact Or.inr (Or.inl ⟨_, _, rfl⟩)
  · intro st i nm ip cy qt sb cs hi st1 hds ih st2 h l hl
    simp only [walk, if_neg hi, hds] at h
    have hst1 : ∀ x ∈ st1.lines, x ∈ st.lines ∨ IsDeclLine x := by
      rcases declStep_ok hds with ⟨hm, rfl⟩ | ⟨hm, lbl, hlbl, rfl⟩
      · exact fun x hx => Or.inl hx
      · intro x hx
        simp only [List.mem_append, List.mem_singleton] at hx
        rcases hx with hx | rfl
        · exact Or.inl hx
        · exact Or.inr ⟨_, _, rfl⟩
    rcases ih st2 h l hl with hc | hc | ⟨c, hcmem, rfl⟩ | hc
    · rcases hst1 l hc with hc2 | hc2
      · exact Or.inl hc2
      · exact Or.inr (Or.inl hc2)
    · exact Or.inr (Or.inl hc)
    · refine Or.inr (Or.inr ⟨.obj i nm ip cy qt sb .arr cs, c, ?_, ?_, rfl⟩)
      · simp [subnodes]
      · simpa [childrenOf] using hcmem
    · refine Or.inr (Or.inr (EdgeSrc_mono hc ?_))
      intro x hx
      simp [subnodes, hx]
  · intro pid st st2 h l hl
    simp only [walkChildren, Except.ok.injEq] at h
    subst h; exact Or.inl hl
  · intro pid st c cs e he ih st2 h l hl
    simp only [walkChildren, he] at h
    exact absurd h (by simp)
  · intro pid st c cs st1 he ih1 ih2 st2 h l hl
    simp only [walkChildren, he] at h
    rcases ih2 st2 h l hl with hc | hc | ⟨c2, hc2, rfl⟩ | hc
    · rcases ih1 st1 he l hc with hd | hd | hd | hd
      · exact Or.inl hd
      · exact Or.inr (Or.inl hd)
      · exact Or.inr (Or.inr (Or.inl ⟨c, List.mem_cons_self _ _, hd⟩))
      · refine Or.inr (Or.inr (Or.inr (EdgeSrc_mono hd ?_)))
        intro x hx
        simp only [subnodesList, List.mem_append]
        exact Or.inl hx
    · exact Or.inr (Or.inl hc)
    · exact Or.inr (Or.inr (Or.inl ⟨c2, List.mem_cons_of_mem _ hc2, rfl⟩))
    · refine Or.inr (Or.inr (Or.inr (EdgeSrc_mono hc ?_)))
      intro x hx
      simp only [subnodesList, List.mem_append]
      exact Or.inr hx
  · intro pid st st2 h l hl
    simp only [walkEntry, Except.ok.injEq] at h
    subst h; exact Or.inl hl
  · intro pid st v st2 h l hl
    simp only [walkEntry, Except.ok.injEq] at h
    subst h; exact Or.inl hl
  · intro pid st i nm ip cy qt sb ck cs hi st2 h l hl
    simp only [walkEntry, if_pos hi, Except.ok.injEq] at h
    subst h; exact Or.inl hl
  · intro pid st i nm ip cy qt sb ck cs hi hcy st2 h l hl
    simp only [walkEntry, if_neg hi, if_pos hcy, Except.ok.injEq] at h
    subst h
    simp only [List.mem_append, List.mem_singleton] at hl
    rcases hl with hl | rfl
    · exact Or.inl hl
    · exact Or.inr (Or.inr (Or.inl (by simp [Node.idv, Node.cyclev, Node.qtyv])))
  · intro pid st i nm ip cy qt sb ck cs hi st1 hcy ih st2 h l hl
    simp only [walkEntry, if_neg hi, if_neg hcy] at h
    rcases ih st2 h l hl with hc | hc | hc
    · have hc2 : l ∈ st.lines ∨ l = edgeFor pid i cy qt := by
        have : l ∈ st.lines ++ [edgeFor pid i cy qt] := hc
        simpa using this
      rcases hc2 with hc2 | rfl
      · exact Or.inl hc2
      · exact Or.inr (Or.inr (Or.inl (by simp [Node.idv, Node.cyclev, Node.qtyv])))
    · exact Or.inr (Or.inl hc)
    · exact Or.inr (Or.inr (Or.inr hc))

theorem WFB_subsOK {i nm ip cy qt : JVal} {sb : SubsField} {ck : CKind}
    {cs : List Node} (h : WFB (.obj i nm ip cy qt sb ck cs) = true) :
    subsOK sb = true := by
  cases ck with
  | falsy => simpa [WFB] using h
  | badTruthy => simp [WFB] at h
  | arr =>
      simp only [WFB, Bool.and_eq_true] at h
      exact h.1

theorem walk_total : ∀ n st, WFB n = true → ∃ st2, walk n st = .ok st2 := by
  refine walk.induct
    (fun n st => WFB n = true → ∃ st2, walk n st = .ok st2)
    (fun pid l st => WFBList l = true → ∃ st2, walkChildren pid l st = .ok st2)
    (fun pid c st => WFB c = true → ∃ st2, walkEntry pid c st = .ok st2)
    ?_ ?_ ?_ ?_ ?_ ?_ ?_ ?_ ?_ ?_ ?_ ?_ ?_ ?_ ?_
  · intro st hw
    exact ⟨st, by simp [walk]⟩
  · intro st v hw
    exact ⟨st, by simp [walk]⟩
  · intro st i nm ip cy qt sb ck cs hi hw
    exact ⟨st, by simp only [walk, if_pos hi]⟩
  · intro st i nm ip cy qt sb ck cs hi e hds hw
    obtain ⟨st1, h1⟩ := declStep_total (WFB_subsOK hw)
    rw [h1] at hds
    cases hds
  · intro st i nm ip cy qt sb cs hi st1 hds hw
    simp [WFB] at hw
  · intro st i nm ip cy qt sb cs hi st1 hds hw
    exact ⟨st1, by simp only [walk, if_neg hi, hds]⟩
  · intro st i nm ip cy qt sb cs hi st1 hds ih hw
    simp only [WFB, Bool.and_eq_true] at hw
    obtain ⟨st2, h2⟩ := ih hw.2
    exact ⟨st2, by simp only [walk, if_neg hi, hds, h2]⟩
  · intro pid st hw
    exact ⟨st, by simp [walkChildren]⟩
  · intro pid st c cs e he ih hw
    simp only [WFBList, Bool.and_eq_true] at hw
    obtain ⟨st1, h1⟩ := ih hw.1
    rw [h1] at he
    cases he
  · intro pid st c cs st1 he ih1 ih2 hw
    simp only [WFBList, Bool.and_eq_true] at hw
    obtain ⟨st2, h2⟩ := ih2 hw.2
    exact ⟨st2, by simp only [walkChildren, he, h2]⟩
  · intro pid st hw
    exact ⟨st, by simp [walkEntry]⟩
  · intro pid st v hw
    exact ⟨st, by simp [walkEntry]⟩
  · intro pid st i nm ip cy qt sb ck cs hi hw
    exact ⟨st, by simp only [walkEntry, if_pos hi]⟩
  · intro pid st i nm ip cy qt sb ck cs hi hcy hw
    exact ⟨⟨st.seen, st.lines ++ [edgeFor pid i cy qt]⟩,
      by simp only [walkEntry, if_neg hi, if_pos hcy]⟩
  · intro pid st i nm ip cy qt sb ck cs hi st1 hcy ih hw
    obtain ⟨st2, h2⟩ := ih hw
    exact ⟨st2, by simp only [walkEntry, if_neg hi, if_neg hcy]; exact h2⟩

theorem walkT_bound : ∀ n st, ∀ f, heightN n < f → walkT f n st = some (walk n st) := by
  refine walk.induct
    (fun n st => ∀ f, heightN n < f → walkT f n st = some (walk n st))
    (fun pid l st => ∀ f, heightL l < f →
      walkTChildren f pid l st = some (walkChildren pid l st))
    (fun pid c st => ∀ f, heightN c < f →
      walkTEntry f pid c st = some (walkEntry pid c st))
    ?_ ?_ ?_ ?_ ?_ ?_ ?_ ?_ ?_ ?_ ?_ ?_ ?_ ?_ ?_
  · intro st f hf
    cases f with
    | zero => exact absurd hf (by omega)
    | succ g => simp only [walkT, walk]
  · intro st v f hf
    cases f with
    | zero => exact absurd hf (by omega)
    | succ g => simp only [walkT, walk]
  · intro st i nm ip cy qt sb ck cs hi f hf
    cases f with
    | zero => exact absurd hf (by omega)
    | succ g => simp only [walkT, walk, if_pos hi]
  · intro st i nm ip cy qt sb ck cs hi e hds f hf
    cases f with
    | zero => exact absurd hf (by omega)
    | succ g => simp only [walkT, walk, if_neg hi, hds]
  · intro st i nm ip cy qt sb cs hi st1 hds f hf
    cases f with
    | zero => exact absurd hf (by omega)
    | succ g => simp only [walkT, walk, if_neg hi, hds]
  · intro st i nm ip cy qt sb cs hi st1 hds f hf
    cases f with
    | zero => exact absurd hf (by omega)
    | succ g => simp only [walkT, walk, if_neg hi, hds]
  · intro st i nm ip cy qt sb cs hi st1 hds ih f hf
    cases f with
    | zero => exact absurd hf (by omega)
    | succ g =>
        simp only [heightN] at hf
        simp only [walkT, walk, if_neg hi, hds]
        exact ih g (by omega)
  · intro pid st f hf
    simp only [walkTChildren, walkChildren]
  · intro pid st c cs e he ih f hf
    simp only [heightL] at hf
    have h1 : heightN c < f := lt_of_le_of_lt (le_max_left _ _) hf
    simp only [walkTChildren, walkChildren, ih f h1, he]
  · intro pid st c cs st1 he ih1 ih2 f hf
    simp only [heightL] at hf
    have h1 : heightN c < f := lt_of_le_of_lt (le_max_left _ _) hf
    have h2 : heightL cs < f := lt_of_le_of_lt (le_max_right _ _) hf
    simp only [walkTChildren, walkChildren, ih1 f h1, he]
    exact ih2 f h2
  · intro pid st f hf
    simp only [walkTEntry, walkEntry]
  · intro pid st v f hf
    simp only [walkTEntry, walkEntry]
  · intro pid st i nm ip cy qt sb ck cs hi f hf
    simp only [walkTEntry, walkEntry, if_pos hi]
  · intro pid st i nm ip cy qt sb ck cs hi hcy f hf
    simp only [walkTEntry, walkEntry, if_neg hi, if_pos hcy]
  · intro pid st i nm ip cy qt sb ck cs hi st1 hcy ih f hf
    simp only [walkTEntry, walkEntry, if_neg hi, if_neg hcy]
    exact ih f hf

theorem walkS_eq : ∀ n st, ∀ f, 2 * sizeOf n ≤ f → walkS f n st = some (walk n st) := by
  refine walk.induct
    (fun n st => ∀ f, 2 * sizeOf n ≤ f → walkS f n st = some (walk n st))
    (fun pid l st => ∀ f, 2 * sizeOf l + 1 ≤ f →
      walkSChildren f pid l st = some (walkChildren pid l st))
    (fun pid c st => ∀ f, 2 * sizeOf c + 1 ≤ f →
      walkSEntry f pid c st = some (walkEntry pid c st))
    ?_ ?_ ?_ ?_ ?_ ?_ ?_ ?_ ?_ ?_ ?_ ?_ ?_ ?_ ?_
  · intro st f hf
    cases f with
    | zero => simp only [Node.nullish.sizeOf_spec] at hf; omega
    | succ g => simp only [walkS, walk]
  · intro st v f hf
    cases f with
    | zero => simp only [Node.prim.sizeOf_spec] at hf; omega
    | succ g => simp only [walkS, walk]
  · intro st i nm ip cy qt sb ck cs hi f hf
    cases f with
    | zero => simp only [Node.obj.sizeOf_spec] at hf; omega
    | succ g => simp only [walkS, walk, if_pos hi]
  · intro st i nm ip cy qt sb ck cs hi e hds f hf
    cases f with
    | zero => simp only [Node.obj.sizeOf_spec] at hf; omega
    | succ g => simp only [walkS, walk, if_neg hi, hds]
  · intro st i nm ip cy qt sb cs hi st1 hds f hf
    cases f with
    | zero => simp only [Node.obj.sizeOf_spec] at hf; omega
    | succ g => simp only [walkS, walk, if_neg hi, hds]
  · intro st i nm ip cy qt sb cs hi st1 hds f hf
    cases f with
    | zero => simp only [Node.obj.sizeOf_spec] at hf; omega
    | succ g => simp only [walkS, walk, if_neg hi, hds]
  · intro st i nm ip cy qt sb cs hi st1 hds ih f hf
    cases f with
    | zero => simp only [Node.obj.sizeOf_spec] at hf; omega
    | succ g =>
        simp only [Node.obj.sizeOf_spec] at hf
        simp only [walkS, walk, if_neg hi, hds]
        exact ih g (by omega)
  · intro pid st f hf
    cases f with
    | zero => simp only [List.nil.sizeOf_spec] at hf; omega
    | succ g => simp only [walkSChildren, walkChildren]
  · intro pid st c cs e he ih f hf
    cases f with
    | zero => simp only [List.cons.sizeOf_spec] at hf; omega
    | succ g =>
        simp only [List.cons.sizeOf_spec] at hf
        simp only [walkSChildren, walkChildren, ih g (by omega), he]
  · intro pid st c cs st1 he ih1 ih2 f hf
    cases f with
    | zero => simp only [List.cons.sizeOf_spec] at hf; omega
    | succ g =>
        simp only [List.cons.sizeOf_spec] at hf
        simp only [walkSChildren, walkChildren, ih1 g (by omega), he]
        exact ih2 g (by omega)
  · intro pid st f hf
    cases f with
    | zero => simp only [Node.nullish.sizeOf_spec] at hf; omega
    | succ g => simp only [walkSEntry, walkEntry]
  · intro pid st v f hf
    cases f with
    | zero => simp only [Node.prim.sizeOf_spec] at hf; omega
    | succ g => simp only [walkSEntry, walkEntry]
  · intro pid st i nm ip cy qt sb ck cs hi f hf
    cases f with
    | zero => simp only [Node.obj.sizeOf_spec] at hf; omega
    | succ g => simp only [walkSEntry, walkEntry, if_pos hi]
  · intro pid st i nm ip cy qt sb ck cs hi hcy f hf
    cases f with
    | zero => simp only [Node.obj.sizeOf_spec] at hf; omega
    | succ g => simp only [walkSEntry, walkEntry, if_neg hi, if_pos hcy]
  · intro pid st i nm ip cy qt sb ck cs hi st1 hcy ih f hf
    cases f with
    | zero => simp only [Node.obj.sizeOf_spec] at hf; omega
    | succ g =>
        simp only [walkSEntry, walkEntry, if_neg hi, if_neg hcy]
        exact ih g (by omega)

theorem walk_eval (n : Node) (st : St) (r : Except Unit St)
    (h : walkS (2 * sizeOf n) n st = some r) : walk n st = r := by
  have h2 := walkS_eq n st (2 * sizeOf n) (le_refl _)
  rw [h] at h2
  exact (Option.some_inj.mp h2).symm

theorem buildLines_of_walk {t : Node} {st2 : St}
    (h : walk t ⟨[], []⟩ = .ok st2) : buildLines t = .ok st2.lines := by
  simp only [buildLines, h]

theorem buildMermaid_of_walk {t : Node} {st2 : St}
    (h : walk t ⟨[], []⟩ = .ok st2) : buildMermaid t =
      .ok (String.intercalate "\n" ("graph TD" :: st2.lines.map renderLine)) := by
  simp only [buildMermaid, h]

theorem buildMermaid_of_walk_error {t : Node}
    (h : walk t ⟨[], []⟩ = .error ()) : buildMermaid t = .error () := by
  simp only [buildMermaid, h]

theorem walkR_cycHeap : ∀ f, (∀ st, walkR f cycHeap (some 0) st = none) ∧
    (∀ st, walkR f cycHeap (some 1) st = none) := by
  intro f
  induction f with
  | zero => exact ⟨fun st => by simp [walkR], fun st => by simp [walkR]⟩
  | succ g ih =>
      have h0 : cycHeap[(0 : Nat)]? = some rnodeA := rfl
      have h1 : cycHeap[(1 : Nat)]? = some rnodeB := rfl
      constructor
      · intro st
        by_cases hm : (JVal.num 1) ∈ st.seen <;>
          simp [walkR, walkRChildren, h0, h1, rnodeA, rnodeB, declStep, nodeLabel,
            subsText, truthy, nullish, hm, ih.2]
      · intro st
        by_cases hm : (JVal.num 2) ∈ st.seen <;>
          simp [walkR, walkRChildren, h0, h1, rnodeA, rnodeB, declStep, nodeLabel,
            subsText, truthy, nullish, hm, ih.1]

/-- C5 counterexample: on the spec's literal input — the child entry being a
wrapper `(quantity, child)` object rather than the child node itself — the
code skips the entry (its `id` is undefined), so the output is the one-node
diagram and not the claimed four-line string. -/
theorem c5_counterexample :
    buildMermaid exWrapper = .ok "graph TD\nP1[\"A\"]" ∧
    "graph TD\nP1[\"A\"]" ≠ "graph TD\nP1[\"A\"]\nP1 -->|2| P2\nP2[\"B\"]" := by
  constructor
  · have h : walk exWrapper ⟨[], []⟩ = .ok ⟨[.num 1], [Line.decl (.num 1) "A"]⟩ :=
      walk_eval _ _ _ (by decide)
    exact (buildMermaid_of_walk h).trans (by decide)
  · decide

/-- C5 (corrected): for the quantity example in the child shape the code
actually consumes — the child entry is the child node itself, carrying its
own `quantity` field — `buildMermaid` returns exactly the four-line string
header, root declaration, quantity-annotated edge, child declaration. -/
theorem c5_flat_example :
    buildMermaid exFlat = .ok "graph TD\nP1[\"A\"]\nP1 -->|2| P2\nP2[\"B\"]" := by
  have h : walk exFlat ⟨[], []⟩ = .ok ⟨[.num 1, .num 2],
      [Line.decl (.num 1) "A", Line.edge (.num 1) (.num 2) false (some (.num 2)),
       Line.decl (.num 2) "B"]⟩ := walk_eval _ _ _ (by decide)
  exact (buildMermaid_of_walk h).trans (by decide)

/-- C3 (code bug): the source's `escape` does not remove or escape double
quotes — the JavaScript replacement literal in `.replace(/"/g, '\"')` denotes
a bare quote, so quotes pass through unchanged and a label containing a quote
yields a declaration line with an unescaped quote inside the quoted label
(`P1["A"B"]`).  The bracket substitution and the falsy-input-to-empty-string
behaviour do hold. -/
theorem c3_quote_unescaped :
    buildMermaid exQuote = .ok "graph TD\nP1[\"A\"B\"]" ∧
    escape (.str "A\"B") = "A\"B" ∧
    escape (.str "x[y]") = "x(y)" ∧
    escape .undefined = "" := by
  refine ⟨?_, by decide, by decide, by decide⟩
  have h : walk exQuote ⟨[], []⟩ = .ok ⟨[.num 1], [Line.decl (.num 1) "A\"B"]⟩ :=
    walk_eval _ _ _ (by decide)
  exact (buildMermaid_of_walk h).trans (by decide)

/-- C8 counterexample: a `substitutes` array containing a null entry makes
`s.name` throw inside `nodeLabel` while the node is being declared, so
`buildMermaid` throws instead of skipping the malformed element. -/
theorem c8_counterexample : buildMermaid exBadSubs = .error () := by
  exact buildMermaid_of_walk_error (walk_eval _ _ _ (by decide))

/-- C8 (corrected): `buildMermaid` never throws and returns a string for
every input in which each `substitutes` array is free of nullish entries and
each `children` field is falsy or an array; all other malformed elements
(nullish root, id-less nodes, nullish or primitive or id-less child entries)
are silently skipped. -/
theorem c8_total (t : Node) (h : WFB t = true) : ∃ s, buildMermaid t = .ok s := by
  obtain ⟨st2, h2⟩ := walk_total t ⟨[], []⟩ h
  exact ⟨String.intercalate "\n" ("graph TD" :: List.map renderLine st2.lines),
    by simp only [buildMermaid, h2]⟩

/-- C8 witness: a tree full of skippable malformed pieces still yields a
string. -/
theorem c8_witness : ∃ s, buildMermaid exJunk = .ok s :=
  c8_total exJunk (by decide)

/-- C9 (confirmed): a node whose `id` is falsy — in particular numeric 0 or
the empty string, not only an absent id — is skipped entirely when walked
(no declaration, no children visited: the state is returned unchanged), and
as a child entry the whole edge is skipped. -/
theorem c9_falsy_id :
    (∀ i nm ip cy qt sb ck cs st, truthy i = false →
      walk (.obj i nm ip cy qt sb ck cs) st = .ok st) ∧
    (∀ pid i nm ip cy qt sb ck cs st, truthy i = false →
      walkEntry pid (.obj i nm ip cy qt sb ck cs) st = .ok st) ∧
    truthy (.num 0) = false ∧ truthy (.str "") = false := by
  refine ⟨?_, ?_, by decide, by decide⟩
  · intro i nm ip cy qt sb ck cs st hi
    simp only [walk, if_pos hi]
  · intro pid i nm ip cy qt sb ck cs st hi
    simp only [walkEntry, if_pos hi]

/-- C9 witness: a node with id 0 is skipped as the current node, and a node
with empty-string id is skipped as a child entry. -/
theorem c9_witness :
    walk (.obj (.num 0) (.str "zero") .undefined .undefined .undefined .notArray .falsy [])
      ⟨[], []⟩ = .ok ⟨[], []⟩ ∧
    walkEntry (.num 1)
      (.obj (.str "") (.str "empty") .undefined .undefined .undefined .notArray .falsy [])
      ⟨[], []⟩ = .ok ⟨[], []⟩ :=
  ⟨c9_falsy_id.1 _ _ _ _ _ _ _ _ _ (by decide),
   c9_falsy_id.2.1 _ _ _ _ _ _ _ _ _ _ (by decide)⟩

/-- C1 counterexample: in the cycle example the cycle-marked child (id 2) was
never declared before, yet the output contains no declaration line for it —
the code pushes only the edge line and never declares a cycle-marked child,
contradicting the claim that such a child is declared if not already. -/
theorem c1_counterexample :
    buildLines exCycle =
      .ok [Line.decl (.num 1) "A", Line.edge (.num 1) (.num 2) true none] ∧
    JVal.num 2 ∉
      declIds [Line.decl (.num 1) "A", Line.edge (.num 1) (.num 2) true none] := by
  have h : walk exCycle ⟨[], []⟩ =
      .ok ⟨[.num 1], [Line.decl (.num 1) "A", Line.edge (.num 1) (.num 2) true none]⟩ :=
    walk_eval _ _ _ (by decide)
  constructor
  · exact (buildLines_of_walk h).trans (by decide)
  · decide

/-- C1 (corrected): for a child entry marked with a truthy `cycle` flag and a
truthy id, `walk` pushes exactly the (dashed) edge line and nothing else — no
declaration line for the child (not even when its id was never declared), no
lines from the child's own children, and no change to the seen set; the
cycle example thus renders as the header, the root declaration and the dashed
edge only, with no `P2` declaration and no `P2`-to-`P1` line. -/
theorem c1_cycle_child :
    (∀ pid i nm ip cy qt sb ck cs st, truthy i = true → truthy cy = true →
      walkEntry pid (.obj i nm ip cy qt sb ck cs) st =
        .ok ⟨st.seen, st.lines ++ [edgeFor pid i cy qt]⟩) ∧
    buildMermaid exCycle = .ok "graph TD\nP1[\"A\"]\nP1 -.-> P2" := by
  constructor
  · intro pid i nm ip cy qt sb ck cs st hi hcy
    simp [walkEntry, hi, hcy]
  · have h : walk exCycle ⟨[], []⟩ =
        .ok ⟨[.num 1], [Line.decl (.num 1) "A", Line.edge (.num 1) (.num 2) true none]⟩ :=
      walk_eval _ _ _ (by decide)
    exact (buildMermaid_of_walk h).trans (by decide)

/-- C1 witness: a fresh cycle-marked child contributes exactly its edge
line. -/
theorem c1_witness :
    walkEntry (.num 1)
      (.obj (.num 2) (.str "B") .undefined (.bool true) .undefined .notArray .falsy [])
      ⟨[], []⟩ =
      .ok ⟨[], [edgeFor (.num 1) (.num 2) (.bool true) .undefined]⟩ :=
  c1_cycle_child.1 _ _ _ _ _ _ _ _ _ _ (by decide) (by decide)

/-- C2 counterexample: on the two-node object graph whose reference cycle
carries no `cycle` flag, `walk` exhausts every finite recursion budget — no
amount of fuel lets `walkR` finish, so the recursion of `walk` is not bounded
on such inputs and the real code overflows the stack. -/
theorem c2_counterexample :
    ¬ ∃ f r, walkR f cycHeap (some 0) ⟨[], []⟩ = some r := by
  rintro ⟨f, r, h⟩
  rw [(walkR_cycHeap f).1 ⟨[], []⟩] at h
  cases h

/-- C2 (corrected): on tree-shaped inputs — every child entry a fresh node,
cycle-closing edges flagged or absent — `walk` terminates, with recursion
depth bounded by the height of the tree: fuel `heightN n + 1` always
suffices and reproduces `walk`'s result exactly.  On an object graph with an
actual unflagged reference cycle the recursion is unbounded (see the
counterexample), because the seen set suppresses only re-declaration, not
re-traversal. -/
theorem c2_height_bound :
    ∀ n st, walkT (heightN n + 1) n st = some (walk n st) :=
  fun n st => walkT_bound n st (heightN n + 1) (by omega)

/-- C4 (confirmed): on every input on which the build completes, each id has
at most one declaration line (deduplication is by id value); and for a tree
of distinct truthy ids with no cycle flags, the declared ids are exactly the
tree's ids in traversal order — N distinct ids give exactly N declaration
lines, one per id. -/
theorem c4_decl_unique :
    (∀ t ls, buildLines t = .ok ls → ∀ j, (declIds ls).count j ≤ 1) ∧
    (∀ t ls, buildLines t = .ok ls → (allIds t).Nodup →
      (∀ j ∈ allIds t, truthy j = true) → noCycB t = true →
      declIds ls = allIds t) := by
  constructor
  · intro t ls h j
    cases hw : walk t ⟨[], []⟩ with
    | error e => simp [buildLines, hw] at h
    | ok st =>
        simp only [buildLines, hw, Except.ok.injEq] at h
        subst h
        have hinv := walk_inv t ⟨[], []⟩ st hw
          ⟨by simp [declIds], by simp [declIds]⟩
        exact List.nodup_iff_count_le_one.mp hinv.2 j
  · intro t ls h hnd htr hnc
    cases hw : walk t ⟨[], []⟩ with
    | error e => simp [buildLines, hw] at h
    | ok st =>
        simp only [buildLines, hw, Except.ok.injEq] at h
        subst h
        have htrace := walk_trace t ⟨[], []⟩ hnd htr hnc
          (fun j hj => by simp) st hw
        simpa [declIds] using htrace.2

/-- C4 witness: on the quantity example the two declaration lines carry the
two distinct ids, each once. -/
theorem c4_witness :
    (declIds [Line.decl (.num 1) "A",
      Line.edge (.num 1) (.num 2) false (some (.num 2)),
      Line.decl (.num 2) "B"]).count (JVal.num 2) ≤ 1 ∧
    declIds [Line.decl (.num 1) "A",
      Line.edge (.num 1) (.num 2) false (some (.num 2)),
      Line.decl (.num 2) "B"] = allIds exFlat :=
  ⟨c4_decl_unique.1 exFlat
      [Line.decl (.num 1) "A",
        Line.edge (.num 1) (.num 2) false (some (.num 2)),
        Line.decl (.num 2) "B"]
      (by
        have h : walk exFlat ⟨[], []⟩ = .ok ⟨[.num 1, .num 2],
            [Line.decl (.num 1) "A",
             Line.edge (.num 1) (.num 2) false (some (.num 2)),
             Line.decl (.num 2) "B"]⟩ := walk_eval _ _ _ (by decide)
        exact (buildLines_of_walk h).trans (by decide))
      (JVal.num 2),
   c4_decl_unique.2 exFlat
      [Line.decl (.num 1) "A",
        Line.edge (.num 1) (.num 2) false (some (.num 2)),
        Line.decl (.num 2) "B"]
      (by
        have h : walk exFlat ⟨[], []⟩ = .ok ⟨[.num 1, .num 2],
            [Line.decl (.num 1) "A",
             Line.edge (.num 1) (.num 2) false (some (.num 2)),
             Line.decl (.num 2) "B"]⟩ := walk_eval _ _ _ (by decide)
        exact (buildLines_of_walk h).trans (by decide))
      (by decide) (by decide) (by decide)⟩

/-- C6 (confirmed): every edge line the build emits was pushed for a child
entry of a reachable parent node, and its connector is the dashed `-.->` form
exactly when that child's `cycle` field is truthy, the solid `-->` form
otherwise. -/
theorem c6_connector (t : Node) (ls : List Line) (p c : JVal) (d : Bool)
    (q : Option JVal) (h1 : buildLines t = .ok ls)
    (h2 : Line.edge p c d q ∈ ls) :
    ∃ pn cn, pn ∈ subnodes t ∧ cn ∈ childrenOf pn ∧
      Line.edge p c d q = edgeFor pn.idv cn.idv cn.cyclev cn.qtyv ∧
      (d = true ↔ truthy cn.cyclev = true) := by
  cases hw : walk t ⟨[], []⟩ with
  | error e => simp [buildLines, hw] at h1
  | ok st =>
      simp only [buildLines, hw, Except.ok.injEq] at h1
      subst h1
      rcases walk_edges t ⟨[], []⟩ st hw _ h2 with hc | hc | hc
      · simp at hc
      · obtain ⟨j, lbl, heq⟩ := hc
        cases heq
      · obtain ⟨pn, cn, hp, hcch, hl⟩ := hc
        refine ⟨pn, cn, hp, hcch, hl, ?_⟩
        simp only [edgeFor, Line.edge.injEq] at hl
        rw [hl.2.2.1]

/-- C6 witness: the quantity example's edge is solid, and its source child's
cycle field is not truthy. -/
theorem c6_witness :
    ∃ pn cn, pn ∈ subnodes exFlat ∧ cn ∈ childrenOf pn ∧
      Line.edge (.num 1) (.num 2) false (some (.num 2)) =
        edgeFor pn.idv cn.idv cn.cyclev cn.qtyv ∧
      (false = true ↔ truthy cn.cyclev = true) :=
  c6_connector exFlat
    [Line.decl (.num 1) "A",
      Line.edge (.num 1) (.num 2) false (some (.num 2)),
      Line.decl (.num 2) "B"]
    (.num 1) (.num 2) false (some (.num 2))
    (by
        have h : walk exFlat ⟨[], []⟩ = .ok ⟨[.num 1, .num 2],
            [Line.decl (.num 1) "A",
             Line.edge (.num 1) (.num 2) false (some (.num 2)),
             Line.decl (.num 2) "B"]⟩ := walk_eval _ _ _ (by decide)
        exact (buildLines_of_walk h).trans (by decide))
    (by decide)

/-- C7 (confirmed): every edge line the build emits carries the quantity
annotation of its child entry exactly when the child's `quantity` field is
non-nullish (`quantity != null`), and no annotation when it is nullish. -/
theorem c7_quantity (t : Node) (ls : List Line) (p c : JVal) (d : Bool)
    (q : Option JVal) (h1 : buildLines t = .ok ls)
    (h2 : Line.edge p c d q ∈ ls) :
    ∃ pn cn, pn ∈ subnodes t ∧ cn ∈ childrenOf pn ∧
      Line.edge p c d q = edgeFor pn.idv cn.idv cn.cyclev cn.qtyv ∧
      (nullish cn.qtyv = false → q = some cn.qtyv) ∧
      (nullish cn.qtyv = true → q = none) := by
  cases hw : walk t ⟨[], []⟩ with
  | error e => simp [buildLines, hw] at h1
  | ok st =>
      simp only [buildLines, hw, Except.ok.injEq] at h1
      subst h1
      rcases walk_edges t ⟨[], []⟩ st hw _ h2 with hc | hc | hc
      · simp at hc
      · obtain ⟨j, lbl, heq⟩ := hc
        cases heq
      · obtain ⟨pn, cn, hp, hcch, hl⟩ := hc
        refine ⟨pn, cn, hp, hcch, hl, ?_, ?_⟩ <;>
          simp only [edgeFor, Line.edge.injEq] at hl <;>
          intro hq <;> rw [hl.2.2.2] <;> simp [hq]

/-- C7 witness: the quantity example's edge is annotated with the child's
quantity 2. -/
theorem c7_witness :
    ∃ pn cn, pn ∈ subnodes exFlat ∧ cn ∈ childrenOf pn ∧
      Line.edge (.num 1) (.num 2) false (some (.num 2)) =
        edgeFor pn.idv cn.idv cn.cyclev cn.qtyv ∧
      (nullish cn.qtyv = false → some (JVal.num 2) = some cn.qtyv) ∧
      (nullish cn.qtyv = true → some (JVal.num 2) = none) :=
  c7_quantity exFlat
    [Line.decl (.num 1) "A",
      Line.edge (.num 1) (.num 2) false (some (.num 2)),
      Line.decl (.num 2) "B"]
    (.num 1) (.num 2) false (some (.num 2))
    (by
        have h : walk exFlat ⟨[], []⟩ = .ok ⟨[.num 1, .num 2],
            [Line.decl (.num 1) "A",
             Line.edge (.num 1) (.num 2) false (some (.num 2)),
             Line.decl (.num 2) "B"]⟩ := walk_eval _ _ _ (by decide)
        exact (buildLines_of_walk h).trans (by decide))
    (by decide)

/-- C10 (confirmed): the seen set suppresses re-declaration but not
re-traversal — a non-cycle child with a truthy id already in `seen` is walked
again, its whole children loop re-run; on the diamond example the node
reached via two edges has one declaration line while each of its outgoing
edge lines appears twice. -/
theorem c10_retraversal :
    (∀ i nm ip cy qt sb cs st, truthy i = true → i ∈ st.seen →
      walk (.obj i nm ip cy qt sb .arr cs) st = walkChildren i cs st) ∧
    (buildLines exDiamond = .ok exDiamondLines ∧
      exDiamondLines.count (Line.edge (.num 2) (.num 3) false none) = 2 ∧
      (declIds exDiamondLines).count (.num 2) = 1) := by
  refine ⟨?_, ?_, by decide, by decide⟩
  · intro i nm ip cy qt sb cs st hi hm
    have hds : declStep i nm ip cy sb st = .ok st := by
      unfold declStep
      rw [if_pos hm]
    simp [walk, hi, hds]
  · have h : walk exDiamond ⟨[], []⟩ =
        .ok ⟨[.num 1, .num 2, .num 3], exDiamondLines⟩ := walk_eval _ _ _ (by decide)
    exact (buildLines_of_walk h).trans (by decide)

/-- C10 witness: an already-seen node is walked again (its children loop is
re-entered rather than skipped). -/
theorem c10_witness :
    walk (.obj (.num 2) (.str "B") .undefined .undefined .undefined .notArray .arr [])
      ⟨[.num 2], []⟩ = walkChildren (.num 2) [] ⟨[.num 2], []⟩ :=
  c10_retraversal.1 _ _ _ _ _ _ _ _ (by decide) (by decide)
